import Mathlib

/-!
Verification of a SHA-256 implementation (`sha256.py`).

The Python source is shallowly embedded below.  Bytes are `Nat`s below 256,
byte strings are `List Nat`, and Python's arbitrary-precision integers are
`Nat` (with the source's explicit `% 2 ** 32` masks kept).  The module-global
mutable list `H` of the source is handled by explicit state passing: the
running hash state is an argument and result of the embedded functions.
Python `assert` failures and early `exit` paths are modelled with `Option`
(`none` = no digest is produced).
-/

namespace Sha256

set_option maxRecDepth 4000

/-- Source `rotr`: right-rotation of a 32-bit word,
`(x >> n) | ((x << (32 - n)) % 2 ** 32)`. -/
def rotr (x n : Nat) : Nat :=
  (x >>> n) ||| ((x <<< (32 - n)) % 2 ^ 32)

/-- Source `ch`.  Python computes `(x & y) ^ ((~x) & z)` on unbounded ints;
for `x < 2 ^ 32` and `z < 2 ^ 32` the negative `~x` conjoined with `z`
equals `(x ^ 0xffffffff) & z`, which is the form used here. -/
def ch (x y z : Nat) : Nat :=
  (x &&& y) ^^^ ((x ^^^ 0xffffffff) &&& z)

/-- Source `maj`. -/
def maj (x y z : Nat) : Nat :=
  (x &&& y) ^^^ (x &&& z) ^^^ (y &&& z)

/-- Source `bsig0`. -/
def bsig0 (x : Nat) : Nat :=
  rotr x 2 ^^^ rotr x 13 ^^^ rotr x 22

/-- Source `bsig1`. -/
def bsig1 (x : Nat) : Nat :=
  rotr x 6 ^^^ rotr x 11 ^^^ rotr x 25

/-- Source `ssig0`. -/
def ssig0 (x : Nat) : Nat :=
  rotr x 7 ^^^ rotr x 18 ^^^ (x >>> 3)

/-- Source `ssig1`. -/
def ssig1 (x : Nat) : Nat :=
  rotr x 17 ^^^ rotr x 19 ^^^ (x >>> 10)

/-- Source `K`: the 64 round constants, in the source's order (written
here in groups of six to keep rows short). -/
def K : List Nat :=
  [0x428a2f98, 0x71374491, 0xb5c0fbcf, 0xe9b5dba5, 0x3956c25b, 0x59f111f1] ++
  [0x923f82a4, 0xab1c5ed5, 0xd807aa98, 0x12835b01, 0x243185be, 0x550c7dc3] ++
  [0x72be5d74, 0x80deb1fe, 0x9bdc06a7, 0xc19bf174, 0xe49b69c1, 0xefbe4786] ++
  [0x0fc19dc6, 0x240ca1cc, 0x2de92c6f, 0x4a7484aa, 0x5cb0a9dc, 0x76f988da] ++
  [0x983e5152, 0xa831c66d, 0xb00327c8, 0xbf597fc7, 0xc6e00bf3, 0xd5a79147] ++
  [0x06ca6351, 0x14292967, 0x27b70a85, 0x2e1b2138, 0x4d2c6dfc, 0x53380d13] ++
  [0x650a7354, 0x766a0abb, 0x81c2c92e, 0x92722c85, 0xa2bfe8a1, 0xa81a664b] ++
  [0xc24b8b70, 0xc76c51a3, 0xd192e819, 0xd6990624, 0xf40e3585, 0x106aa070] ++
  [0x19a4c116, 0x1e376c08, 0x2748774c, 0x34b0bcb5, 0x391c0cb3, 0x4ed8aa4a] ++
  [0x5b9cca4f, 0x682e6ff3, 0x748f82ee, 0x78a5636f, 0x84c87814, 0x8cc70208] ++
  [0x90befffa, 0xa4506ceb, 0xbef9a3f7, 0xc67178f2]

/-- Source `H`: the 8 initial hash words (the initial value of the module's
mutable global hash state). -/
def H : List Nat :=
  [0x6a09e667, 0xbb67ae85, 0x3c6ef372, 0xa54ff53a] ++
  [0x510e527f, 0x9b05688c, 0x1f83d9ab, 0x5be0cd19]

/-- Python `int.from_bytes(bs, byteorder = 'big')` on a list of bytes. -/
def from_bytes_be (l : List Nat) : Nat :=
  l.foldl (fun a x => a * 256 + x) 0

/-- Python `n.to_bytes(8, byteorder = 'big')`: the 8-byte big-endian
encoding of `n` (the source asserts `n < 2 ^ 64` before calling it). -/
def to_bytes_be8 (n : Nat) : List Nat :=
  [n / 2 ^ 56 % 256, n / 2 ^ 48 % 256, n / 2 ^ 40 % 256, n / 2 ^ 32 % 256,
   n / 2 ^ 24 % 256, n / 2 ^ 16 % 256, n / 2 ^ 8 % 256, n % 256]

/-- Source `perform_padding` line `k = (440 - l) % 512` (Python's `%` on a
possibly negative left operand is the nonnegative `Int.emod`), followed by
`k >> 3` zero bytes. -/
def pad_zero_count (input_size : Nat) : Nat :=
  ((440 - (input_size : Int)) % 512).toNat >>> 3

/-- Body of source `perform_padding` (after its two asserts): the chunk,
the `0x80` marker byte, `pad_zero_count` zero bytes, and the 8-byte
big-endian bit length. -/
def perform_padding_core (chunck : List Nat) (input_size : Nat) : List Nat :=
  chunck ++ [0x80] ++ List.replicate (pad_zero_count input_size) 0 ++ to_bytes_be8 input_size

/-- Source `perform_padding`, with its two `assert`s modelled as `Option`
guards: `len(chunck) <= 64` and `input_size < 2 ** 64`. -/
def perform_padding (chunck : List Nat) (input_size : Nat) : Option (List Nat) :=
  if chunck.length ≤ 64 then
    if input_size < 2 ^ 64 then some (perform_padding_core chunck input_size) else none
  else none

/-- Source `compute_hash` word parse: `int.from_bytes(block[wi * 4 : wi * 4 + 4], 'big')`. -/
def word_at (block : List Nat) (wi : Nat) : Nat :=
  from_bytes_be ((block.drop (wi * 4)).take 4)

/-- The first 16 schedule words: source loop over `range(len(block) >> 2)`. -/
def initial_words (block : List Nat) : List Nat :=
  (List.range (block.length >>> 2)).map (word_at block)

/-- One iteration of the source's schedule-extension loop body
(`words.append(... % 2 ** 32)` at index `wi`). -/
def schedule_step (words : List Nat) (wi : Nat) : List Nat :=
  words ++ [(ssig1 (words.getD (wi - 2) 0) + words.getD (wi - 7) 0 +
             ssig0 (words.getD (wi - 15) 0) + words.getD (wi - 16) 0) % 2 ^ 32]

/-- The source's `for wi in range(16, 64)` extension loop, as a recursion on
the number of remaining iterations. -/
def schedule_go : Nat → Nat → List Nat → List Nat
  | 0, _, words => words
  | n + 1, wi, words => schedule_go n (wi + 1) (schedule_step words wi)

/-- The full 64-word message schedule built by source `compute_hash`. -/
def message_schedule (block : List Nat) : List Nat :=
  schedule_go 48 16 (initial_words block)

/-- The 8 working variables `a..h` of source `compute_hash`. -/
structure Regs where
  a : Nat
  b : Nat
  c : Nat
  d : Nat
  e : Nat
  f : Nat
  g : Nat
  h : Nat
deriving DecidableEq

/-- One round of the source's `for t in range(0, 64)` loop. -/
def round_step (words : List Nat) (r : Regs) (t : Nat) : Regs :=
  let t1 := (r.h + bsig1 r.e + ch r.e r.f r.g + K.getD t 0 + words.getD t 0) % 2 ^ 32
  let t2 := (bsig0 r.a + maj r.a r.b r.c) % 2 ^ 32
  ⟨(t1 + t2) % 2 ^ 32, r.a, r.b, r.c, (r.d + t1) % 2 ^ 32, r.e, r.f, r.g⟩

/-- Source `a, b, c, d, e, f, g, h = H[0:]`. -/
def regs_of_state (st : List Nat) : Regs :=
  ⟨st.getD 0 0, st.getD 1 0, st.getD 2 0, st.getD 3 0,
   st.getD 4 0, st.getD 5 0, st.getD 6 0, st.getD 7 0⟩

/-- The list `[a, b, c, d, e, f, g, h]` of source line 106. -/
def regs_list (r : Regs) : List Nat :=
  [r.a, r.b, r.c, r.d, r.e, r.f, r.g, r.h]

/-- The source's round loop, as a recursion on the number of remaining
rounds (`n` rounds left, next round index `t`). -/
def rounds_go (words : List Nat) : Nat → Nat → Regs → Regs
  | 0, _, r => r
  | n + 1, t, r => rounds_go words n (t + 1) (round_step words r t)

/-- Body of source `compute_hash` (after its assert), as a state
transformer: the final `for i, x in enumerate([a..h]): H[i] = (x + H[i]) % 2 ** 32`
updates the first 8 entries of the state and leaves any others unchanged. -/
def compute_hash_core (block : List Nat) (st : List Nat) : List Nat :=
  let words := message_schedule block
  let r := rounds_go words 64 0 (regs_of_state st)
  List.zipWith (fun x hi => (x + hi) % 2 ^ 32) (regs_list r) st ++ st.drop 8

/-- Source `compute_hash` with its `assert len(block) == 64` modelled as an
`Option` guard, and the global `H` passed and returned explicitly. -/
def compute_hash (block : List Nat) (st : List Nat) : Option (List Nat) :=
  if block.length = 64 then some (compute_hash_core block st) else none

/-- The mutable module-global state of the Python source: the list `H`
(the only global the program ever mutates). -/
structure PyGlobals where
  H : List Nat
deriving DecidableEq

/-- Source `compute_hash` viewed as a transformer of the module globals:
it reads the global `H` (line 92), runs the rounds, and writes the new
words back into the global `H` (lines 106-107); its Python return value is
`None`, so the updated global is its only output channel. -/
def compute_hash_global (block : List Nat) (g : PyGlobals) : Option PyGlobals :=
  (compute_hash block g.H).map fun h' => ⟨h'⟩

/-- Number of 64-byte slices of `l` (`ceil (l.length / 64)`). -/
def chunk_count (n : Nat) : Nat :=
  (n + 63) / 64

/-- The source's inner loop `for i in range(0, len(chunck), 64)`: the
successive 64-byte slices, as a recursion on the slice count. -/
def chunks_go : Nat → List Nat → List (List Nat)
  | 0, _ => []
  | n + 1, l => l.take 64 :: chunks_go n (l.drop 64)

/-- All 64-byte slices of `l`. -/
def chunks64 (l : List Nat) : List (List Nat) :=
  chunks_go (chunk_count l.length) l

/-- Feed a list of blocks to `compute_hash` in order, threading the state. -/
def compress_blocks (blocks : List (List Nat)) (st : List Nat) : Option (List Nat) :=
  match blocks with
  | [] => some st
  | b :: bs => (compute_hash b st).bind (compress_blocks bs)

/-- Source `main` lines 130-132: `nb_chuncks = file_size >> 9`, plus one
when `file_size % 512` is nonzero. -/
def nb_chuncks (file_size : Nat) : Nat :=
  (file_size >>> 9) + (if file_size % (64 * 8) ≠ 0 then 1 else 0)

/-- Source `main` lines 134-144: the `while chunck := f.read(64)` loop.
`data` is the unread rest of the stream; the loop ends when it is empty.
The fuel argument only bounds the recursion; every use supplies at least
`data.length`, which the loop (consuming 64 bytes per iteration, at least
one when nonempty) never exhausts. -/
def main_loop (file_size : Nat) : Nat → List Nat → Nat → List Nat → Option (List Nat)
  | _, [], _, st => some st
  | 0, _ :: _, _, _ => none
  | fuel + 1, d :: ds, nb, st =>
    (if nb = 1 then perform_padding ((d :: ds).take 64) file_size
     else some ((d :: ds).take 64)).bind fun chunck =>
      (compress_blocks (chunks64 chunck) st).bind fun st' =>
        main_loop file_size fuel ((d :: ds).drop 64) (nb - 1) st'

/-- Source `main` lines 120-144, as a function of the file size in bits and
the file's bytes, returning the final hash state (`none` on the too-big
`exit` path or on an assertion failure). A zero `file_size` is the
special-cased empty file: one padded block, one `compute_hash` call. -/
def main_state (file_size : Nat) (data : List Nat) : Option (List Nat) :=
  if file_size ≥ 2 ^ 64 then none
  else if file_size = 0 then
    (perform_padding [] file_size).bind fun block => compute_hash block H
  else
    main_loop file_size data.length data (nb_chuncks file_size) H

/-- One lowercase hex digit, as produced by Python's `'%x'` formatting. -/
def hex_char (n : Nat) : Char :=
  if n < 10 then Char.ofNat (48 + n) else Char.ofNat (87 + n)

/-- Hex digits of `n`, most significant first, no leading zeros
(fuel-indexed; `fuel ≥ number of digits` suffices). -/
def hex_go : Nat → Nat → List Char
  | 0, _ => []
  | fuel + 1, n => if n = 0 then [] else hex_go fuel (n / 16) ++ [hex_char (n % 16)]

/-- Python `f'{h:x}'`: lowercase hex, no zero-padding, `"0"` for zero. -/
def py_hex (n : Nat) : String :=
  if n = 0 then "0" else String.mk (hex_go n n)

/-- Source `main` line 146: `''.join(map(lambda h: f'{h:x}', H))`. -/
def render (st : List Nat) : String :=
  String.join (st.map py_hex)

/-- Source `main`: final state rendered as the digest string. -/
def main_digest (file_size : Nat) (data : List Nat) : Option String :=
  (main_state file_size data).map render

/-- The suffix `perform_padding` appends after its chunk argument: the
`0x80` marker, the zero fill, and the 8-byte big-endian bit length. -/
def pad_tail (input_size : Nat) : List Nat :=
  [0x80] ++ List.replicate (pad_zero_count input_size) 0 ++ to_bytes_be8 input_size

/-- Spec-side whole-message padding, following the spec's words: the
message, one `0x80` marker byte, the minimum number of zero bytes leaving
exactly 8 bytes to the next 64-byte boundary, and the 8-byte big-endian
bit length of the message. -/
def pad_full_spec (data : List Nat) : List Nat :=
  data ++ [0x80] ++ List.replicate ((119 - data.length % 64) % 64) 0 ++
    to_bytes_be8 (8 * data.length)

/-- Spec-side single-shot computation, following the spec's words: pad the
whole message at once and compress its 64-byte blocks in order, starting
from the standard initial hash values. -/
def single_shot (data : List Nat) : List Nat :=
  (chunks64 (pad_full_spec data)).foldl (fun st b => compute_hash_core b st) H

/-- Spec-side message schedule, following the spec's words: `W[0..15]` are
the block's 16 big-endian 32-bit words, and
`W[t] = (ssig1 W[t-2] + W[t-7] + ssig0 W[t-15] + W[t-16]) mod 2 ^ 32` for
`t` in `[16, 63]`.  Stated as a recurrence, to be compared with the
source's loop that appends to a list. -/
def W_spec (block : List Nat) (t : Nat) : Nat :=
  if h : t < 16 then word_at block t
  else (ssig1 (W_spec block (t - 2)) + W_spec block (t - 7) +
        ssig0 (W_spec block (t - 15)) + W_spec block (t - 16)) % 2 ^ 32
termination_by t
decreasing_by all_goals omega

/-- Spec-side rounds, following the spec's words: for `t` in `[0, 63]`,
`T1 = (h + bsig1 e + ch e f g + K[t] + W[t]) mod 2 ^ 32`,
`T2 = (bsig0 a + maj a b c) mod 2 ^ 32`, and the rotation
`(a, b, c, d, e, f, g, h) ← (T1 + T2, a, b, c, d + T1, e, f, g)`. -/
def rounds_spec (Wf : Nat → Nat) (r0 : Regs) : Nat → Regs
  | 0 => r0
  | t + 1 =>
    let r := rounds_spec Wf r0 t
    let t1 := (r.h + bsig1 r.e + ch r.e r.f r.g + K.getD t 0 + Wf t) % 2 ^ 32
    let t2 := (bsig0 r.a + maj r.a r.b r.c) % 2 ^ 32
    ⟨(t1 + t2) % 2 ^ 32, r.a, r.b, r.c, (r.d + t1) % 2 ^ 32, r.e, r.f, r.g⟩

/-- Spec-side new hash state, following the spec's words: the element-wise
sum of the final `(a..h)` with the old state, each modulo `2 ^ 32`. -/
def compute_hash_spec (block : List Nat) (st : List Nat) : List Nat :=
  let r := rounds_spec (W_spec block) (regs_of_state st) 64
  [(r.a + st.getD 0 0) % 2 ^ 32, (r.b + st.getD 1 0) % 2 ^ 32,
   (r.c + st.getD 2 0) % 2 ^ 32, (r.d + st.getD 3 0) % 2 ^ 32,
   (r.e + st.getD 4 0) % 2 ^ 32, (r.f + st.getD 5 0) % 2 ^ 32,
   (r.g + st.getD 6 0) % 2 ^ 32, (r.h + st.getD 7 0) % 2 ^ 32]

/-- Closed form of `pad_zero_count` in `Nat` arithmetic: Python's
`(440 - l) % 512` equals `(952 - l % 512) % 512`, and `>> 3` is division
by 8. -/
theorem pad_zero_count_eq (L : Nat) :
    pad_zero_count L = (952 - L % 512) % 512 / 8 := by
  unfold pad_zero_count
  rw [Nat.shiftRight_eq_div_pow]
  show _ / 8 = _
  omega

/-- The 8-byte big-endian encoding has length 8. -/
theorem to_bytes_be8_length (L : Nat) : (to_bytes_be8 L).length = 8 := rfl

/-- Length of the padded output. -/
theorem perform_padding_core_length (chunck : List Nat) (L : Nat) :
    (perform_padding_core chunck L).length =
      chunck.length + 1 + pad_zero_count L + 8 := by
  simp [perform_padding_core, to_bytes_be8]
  omega

/-- Decoding the 8-byte big-endian encoding returns the encoded number. -/
theorem from_to_bytes_be8 (L : Nat) (h : L < 2 ^ 64) :
    from_bytes_be (to_bytes_be8 L) = L := by
  simp only [from_bytes_be, to_bytes_be8, List.foldl]
  norm_num
  omega

/-- C1: for the 3-byte input "abc" (bit length 24), padding the chunk,
feeding every resulting 64-byte block to `compute_hash` starting from the
standard initial hash values `H`, and hex-rendering the 8 final words
yields exactly the 64-character string of the standard test vector. -/
theorem abc_digest :
    ((perform_padding [0x61, 0x62, 0x63] 24).bind fun padded =>
      (compress_blocks (chunks64 padded) H).map render) =
    some "ba7816bf8f01cfea414140de5dae2223b00361a396177a9cb410ff61f20015ad" := by
  decide

/-- C5 counterexample: the pipeline on the empty input does not yield the
63-character string claimed (that string is a truncation: the digest's last
byte renders as `55`, not `5`). -/
theorem empty_digest_ne_truncated :
    main_digest 0 [] ≠
    some "e3b0c44298fc1c149afbf4c8996fb92427ae41e4649b934ca495991b7852b85" := by
  decide

/-- C5 amended: for the empty input (bit length 0), the pipeline —
`perform_padding` on the empty chunk, `compute_hash` on the single
resulting block from the standard initial hash values, then hex
rendering — yields exactly the standard 64-character digest of the empty
message, which ends in `...b855`. -/
theorem empty_digest :
    main_digest 0 [] =
    some "e3b0c44298fc1c149afbf4c8996fb92427ae41e4649b934ca495991b7852b855" := by
  decide

/-- C4: the formatter `f'\x7bh:x\x7d'` does not zero-pad, so the digest of
the 1-byte input `0x20` (whose sixth hash word is `0x0aac59f8 < 0x10000000`)
renders that word with 7 digits and the whole digest with 63 characters,
not 64 — the code contradicts the 64-character digest format of SHA-256. -/
theorem digest_space_not_64_chars :
    main_digest 8 [0x20] =
      some "36a9e7f1c95b82ffb99743e0c5c4ce95d83c9a43aac59f84ef3cbfab6145068" ∧
    (main_digest 8 [0x20]).map String.length = some 63 := by
  exact ⟨by decide, by decide⟩

/-- C6 counterexample: an invocation of `compute_hash` does modify state
outside its own invocation — it overwrites the module-global `H` (lines
106-107 of the source); on a concrete all-zero block starting from the
initial globals, the globals after the call differ from the globals
before (while the Python return value is `None`, so the global is the
only place the result goes). -/
theorem compute_hash_mutates_global :
    compute_hash_global (List.replicate 64 0) ⟨H⟩ ≠ some (⟨H⟩ : PyGlobals) := by
  decide

/-- C6 amended: `compute_hash` is not pure — it takes only the block,
returns `None`, and replaces the module-global `H`; but that replacement
is its only effect, and the new global `H` is exactly a pure function
(`compute_hash_core`) of the block and the previous global `H`. -/
theorem compute_hash_global_eq_core (block : List Nat) (g : PyGlobals)
    (hb : block.length = 64) :
    compute_hash_global block g = some ⟨compute_hash_core block g.H⟩ := by
  simp [compute_hash_global, compute_hash, hb]

/-- C6 amended, witness at a concrete block and concrete globals. -/
theorem compute_hash_global_eq_core_witness :
    compute_hash_global (List.replicate 64 0) ⟨H⟩ =
      some ⟨compute_hash_core (List.replicate 64 0) H⟩ :=
  compute_hash_global_eq_core (List.replicate 64 0) ⟨H⟩ (by decide)

/-- C8: `perform_padding` succeeds at total bit-length exactly `2 ^ 64 - 1`,
fails (assertion, modelled as `none`) at any bit-length of `2 ^ 64` or
more, and the driver rejects any input whose bit-length is at least
`2 ^ 64` before hashing. -/
theorem input_size_limit (chunck : List Nat) (l fs : Nat) (data : List Nat)
    (hc : chunck.length ≤ 64) (hl : 2 ^ 64 ≤ l) (hfs : 2 ^ 64 ≤ fs) :
    (perform_padding chunck (2 ^ 64 - 1)).isSome ∧
    perform_padding chunck l = none ∧
    main_state fs data = none := by
  refine ⟨?_, ?_, ?_⟩
  · simp [perform_padding, hc]
  · simp only [perform_padding, if_pos hc]
    rw [if_neg (by omega)]
  · rw [main_state, if_pos (by omega)]

/-- C8 witness: at the empty chunk, bit-length `2 ^ 64`, and empty data. -/
theorem input_size_limit_witness :
    (perform_padding [] (2 ^ 64 - 1)).isSome ∧
    perform_padding [] (2 ^ 64) = none ∧
    main_state (2 ^ 64) [] = none :=
  input_size_limit [] (2 ^ 64) (2 ^ 64) [] (by decide) (by omega) (by omega)

/-- C9: there are a starting hash state and two distinct 64-byte blocks
such that compressing them in the two orders yields different final
states — block order is load-bearing. -/
theorem compress_order_sensitive :
    ∃ (st b1 b2 : List Nat), b1.length = 64 ∧ b2.length = 64 ∧ b1 ≠ b2 ∧
      (compute_hash b1 st).bind (fun s => compute_hash b2 s) ≠
      (compute_hash b2 st).bind (fun s => compute_hash b1 s) :=
  ⟨H, List.replicate 64 0, 1 :: List.replicate 63 0,
    by decide, by decide, by decide, by decide⟩

/-- C3: for a final chunk of at most 64 bytes of a message of bit-length
`L < 2 ^ 64` (so `L` agrees with the chunk length modulo one 512-bit
block), `perform_padding` returns the chunk, a single `0x80` byte, the
minimum number of zero bytes leaving exactly 8 bytes to the next 64-byte
boundary, and the 8-byte big-endian bit length; the output length is a
positive multiple of 64, the trailing 8 bytes decode back to `L`, and a
chunk of length 56..63 yields exactly two blocks, the second all-zero
except the trailing length field. -/
theorem perform_padding_correct (chunck : List Nat) (L : Nat)
    (hc : chunck.length ≤ 64) (hL : L < 2 ^ 64)
    (halign : L % 512 = 8 * chunck.length % 512) :
    perform_padding chunck L = some (perform_padding_core chunck L) ∧
    perform_padding_core chunck L =
      chunck ++ [0x80] ++ List.replicate (pad_zero_count L) 0 ++ to_bytes_be8 L ∧
    (chunck.length + 1 + pad_zero_count L) % 64 = 56 ∧
    pad_zero_count L < 64 ∧
    (perform_padding_core chunck L).length % 64 = 0 ∧
    0 < (perform_padding_core chunck L).length ∧
    from_bytes_be ((perform_padding_core chunck L).drop
      ((perform_padding_core chunck L).length - 8)) = L ∧
    (56 ≤ chunck.length → chunck.length ≤ 63 →
      (perform_padding_core chunck L).length = 128 ∧
      (perform_padding_core chunck L).drop 64 =
        List.replicate 56 0 ++ to_bytes_be8 L) := by
  have hz := pad_zero_count_eq L
  have hzv : pad_zero_count L =
      if chunck.length ≤ 55 then 55 - chunck.length else 119 - chunck.length := by
    rw [hz]
    split <;> omega
  refine ⟨by rw [perform_padding, if_pos hc, if_pos hL], rfl, ?_, ?_, ?_, ?_, ?_, ?_⟩
  · rw [hzv]; split <;> omega
  · rw [hzv]; split <;> omega
  · rw [perform_padding_core_length, hzv]; split <;> omega
  · rw [perform_padding_core_length]; omega
  · have hpre : perform_padding_core chunck L =
        (chunck ++ 0x80 :: List.replicate (pad_zero_count L) 0) ++ to_bytes_be8 L := by
      simp [perform_padding_core]
    rw [hpre, List.length_append, to_bytes_be8_length, Nat.add_sub_cancel, List.drop_left]
    exact from_to_bytes_be8 L hL
  · intro h56 h63
    have hz2 : pad_zero_count L = (63 - chunck.length) + 56 := by rw [hzv]; split <;> omega
    have hsplit : perform_padding_core chunck L =
        (chunck ++ 0x80 :: List.replicate (63 - chunck.length) 0) ++
          (List.replicate 56 0 ++ to_bytes_be8 L) := by
      rw [perform_padding_core, hz2, List.replicate_add]
      simp
    constructor
    · rw [perform_padding_core_length, hz2]; omega
    · rw [hsplit, List.drop_left']
      simp
      omega

/-- C3 witness: at the 56-byte zero chunk ending a 56-byte message
(bit length 448), exercising the two-block boundary case. -/
theorem perform_padding_correct_witness :
    perform_padding (List.replicate 56 0) 448 =
      some (perform_padding_core (List.replicate 56 0) 448) ∧
    perform_padding_core (List.replicate 56 0) 448 =
      List.replicate 56 0 ++ [0x80] ++ List.replicate (pad_zero_count 448) 0 ++
        to_bytes_be8 448 ∧
    ((List.replicate 56 0 : List Nat).length + 1 + pad_zero_count 448) % 64 = 56 ∧
    pad_zero_count 448 < 64 ∧
    (perform_padding_core (List.replicate 56 0) 448).length % 64 = 0 ∧
    0 < (perform_padding_core (List.replicate 56 0) 448).length ∧
    from_bytes_be ((perform_padding_core (List.replicate 56 0) 448).drop
      ((perform_padding_core (List.replicate 56 0) 448).length - 8)) = 448 ∧
    (56 ≤ (List.replicate 56 0 : List Nat).length →
      (List.replicate 56 0 : List Nat).length ≤ 63 →
      (perform_padding_core (List.replicate 56 0) 448).length = 128 ∧
      (perform_padding_core (List.replicate 56 0) 448).drop 64 =
        List.replicate 56 0 ++ to_bytes_be8 448) :=
  perform_padding_correct (List.replicate 56 0) 448 (by decide) (by norm_num) (by decide)

/-- Unfolding of the spec schedule below index 16. -/
theorem W_spec_lt16 (block : List Nat) (t : Nat) (ht : t < 16) :
    W_spec block t = word_at block t := by
  rw [W_spec, dif_pos ht]

/-- Unfolding of the spec schedule at index 16 and above. -/
theorem W_spec_ge16 (block : List Nat) (t : Nat) (ht : 16 ≤ t) :
    W_spec block t = (ssig1 (W_spec block (t - 2)) + W_spec block (t - 7) +
      ssig0 (W_spec block (t - 15)) + W_spec block (t - 16)) % 2 ^ 32 := by
  rw [W_spec, dif_neg (by omega)]

/-- The initial 16-word list has length 16 on a 64-byte block. -/
theorem initial_words_length (block : List Nat) (hb : block.length = 64) :
    (initial_words block).length = 16 := by
  simp [initial_words, hb]

/-- Entries of the initial 16-word list are the parsed big-endian words. -/
theorem initial_words_getD (block : List Nat) (hb : block.length = 64)
    (t : Nat) (ht : t < 16) :
    (initial_words block).getD t 0 = word_at block t := by
  have hlen := initial_words_length block hb
  rw [List.getD_eq_getElem _ _ (by omega)]
  simp [initial_words]

/-- The source's schedule-extension loop preserves and extends the
pointwise agreement with the spec recurrence `W_spec`. -/
theorem schedule_go_getD (block : List Nat) :
    ∀ (n wi : Nat) (words : List Nat), 16 ≤ wi → words.length = wi →
      (∀ t, t < wi → words.getD t 0 = W_spec block t) →
      ∀ t, t < wi + n → (schedule_go n wi words).getD t 0 = W_spec block t := by
  intro n
  induction n with
  | zero =>
    intro wi words _ _ hw t ht
    exact hw t (by omega)
  | succ n ih =>
    intro wi words h16 hlen hw t ht
    show (schedule_go n (wi + 1) (schedule_step words wi)).getD t 0 = _
    refine ih (wi + 1) (schedule_step words wi) (by omega)
      (by simp [schedule_step, hlen]) ?_ t (by omega)
    intro u hu
    rcases Nat.lt_or_ge u wi with hcase | hcase
    · rw [schedule_step, List.getD_append _ _ _ _ (by omega)]
      exact hw u hcase
    · have hu' : u = wi := by omega
      subst hu'
      rw [schedule_step, List.getD_append_right _ _ _ _ (by omega), hlen, Nat.sub_self,
        List.getD_cons_zero, hw (u - 2) (by omega), hw (u - 7) (by omega),
        hw (u - 15) (by omega), hw (u - 16) (by omega), ← W_spec_ge16 block u h16]

/-- The 64-word schedule built by the source agrees pointwise with the
spec recurrence. -/
theorem message_schedule_getD (block : List Nat) (hb : block.length = 64) :
    ∀ t, t < 64 → (message_schedule block).getD t 0 = W_spec block t := by
  intro t ht
  refine schedule_go_getD block 48 16 (initial_words block) (by omega)
    (initial_words_length block hb) ?_ t (by omega)
  intro u hu
  rw [initial_words_getD block hb u hu]
  exact (W_spec_lt16 block u hu).symm

/-- The source's round loop computes the spec rounds, given a schedule
that agrees pointwise with the spec schedule. -/
theorem rounds_go_spec (words : List Nat) (Wf : Nat → Nat) (r0 : Regs)
    (hw : ∀ t, t < 64 → words.getD t 0 = Wf t) :
    ∀ (n t : Nat), t + n ≤ 64 →
      rounds_go words n t (rounds_spec Wf r0 t) = rounds_spec Wf r0 (t + n) := by
  intro n
  induction n with
  | zero =>
    intro t _
    rfl
  | succ n ih =>
    intro t ht
    show rounds_go words n (t + 1) (round_step words (rounds_spec Wf r0 t) t) = _
    have hstep : round_step words (rounds_spec Wf r0 t) t = rounds_spec Wf r0 (t + 1) := by
      simp only [round_step, rounds_spec]
      rw [hw t (by omega)]
    rw [hstep, show t + (n + 1) = (t + 1) + n by omega]
    exact ih (t + 1) (by omega)

/-- A list of length 8 is an explicit 8-element list. -/
theorem exists_eight (st : List Nat) (hst : st.length = 8) :
    ∃ a b c d e f g h', st = [a, b, c, d, e, f, g, h'] := by
  rcases st with _ | ⟨s0, _ | ⟨s1, _ | ⟨s2, _ | ⟨s3, _ | ⟨s4, _ | ⟨s5, _ |
    ⟨s6, _ | ⟨s7, _ | ⟨s8, rest⟩⟩⟩⟩⟩⟩⟩⟩⟩ <;>
    first
      | exact ⟨s0, s1, s2, s3, s4, s5, s6, s7, rfl⟩
      | (exfalso; simp at hst)

/-- C2: on every 64-byte block and every 8-word state of 32-bit words,
`compute_hash` computes exactly the spec algorithm: parse 16 big-endian
words, extend by the `W[t]` recurrence to 64 words, run the 64 rounds with
the `T1`/`T2` rotation, and add the result element-wise to the old state
modulo `2 ^ 32`. -/
theorem compute_hash_matches_spec (block st : List Nat)
    (hb : block.length = 64) (hst : st.length = 8)
    (hws : ∀ w ∈ st, w < 2 ^ 32) :
    compute_hash block st = some (compute_hash_spec block st) := by
  rw [compute_hash, if_pos hb]
  congr 1
  have hr : rounds_go (message_schedule block) 64 0 (regs_of_state st) =
      rounds_spec (W_spec block) (regs_of_state st) 64 := by
    have h := rounds_go_spec (message_schedule block) (W_spec block) (regs_of_state st)
      (message_schedule_getD block hb) 64 0 (by omega)
    simpa using h
  rw [compute_hash_core, compute_hash_spec, hr]
  obtain ⟨a, b, c, d, e, f, g, h', hst'⟩ := exists_eight st hst
  subst hst'
  simp [regs_list]

/-- C2 witness: at the all-zero block and the initial hash state. -/
theorem compute_hash_matches_spec_witness :
    compute_hash (List.replicate 64 0) H =
      some (compute_hash_spec (List.replicate 64 0) H) :=
  compute_hash_matches_spec (List.replicate 64 0) H (by decide) (by decide) (by decide)

/-- The padded chunk is the chunk followed by the padding suffix. -/
theorem perform_padding_core_eq_tail (chunck : List Nat) (l : Nat) :
    perform_padding_core chunck l = chunck ++ pad_tail l := by
  simp [perform_padding_core, pad_tail]

/-- There are no 64-byte slices of the empty list. -/
theorem chunks64_nil : chunks64 [] = [] := rfl

/-- Unfolding: the slices of a nonempty list are the first 64 bytes and
the slices of the rest. -/
theorem chunks64_cons (l : List Nat) (hl : l ≠ []) :
    chunks64 l = l.take 64 :: chunks64 (l.drop 64) := by
  have hlen : 0 < l.length := List.length_pos.mpr hl
  have hcc : chunk_count l.length = chunk_count (l.length - 64) + 1 := by
    unfold chunk_count
    omega
  rw [chunks64, hcc]
  show l.take 64 :: chunks_go (chunk_count (l.length - 64)) (l.drop 64) = _
  rw [chunks64, List.length_drop]

/-- A list of exactly 64 bytes is its own single slice. -/
theorem chunks64_single (l : List Nat) (hl : l.length = 64) : chunks64 l = [l] := by
  rw [chunks64_cons l (by intro h; rw [h] at hl; simp at hl),
    List.take_of_length_le (by omega), List.drop_eq_nil_iff.mpr (by omega), chunks64_nil]

/-- Every slice of a list whose length is `64 * n` has exactly 64 bytes. -/
theorem chunks_go_length : ∀ (n : Nat) (l : List Nat), l.length = 64 * n →
    ∀ b ∈ chunks_go n l, b.length = 64 := by
  intro n
  induction n with
  | zero =>
    intro l _ b hb
    simp [chunks_go] at hb
  | succ n ih =>
    intro l hl b hb
    rcases (by simpa [chunks_go] using hb : b = l.take 64 ∨ b ∈ chunks_go n (l.drop 64))
      with hb' | hb'
    · rw [hb', List.length_take]
      omega
    · exact ih (l.drop 64) (by simp [hl]; omega) b hb'

/-- Every 64-byte slice of a list whose length is a multiple of 64 has
exactly 64 bytes. -/
theorem chunks64_all_64 (l : List Nat) (hmul : l.length % 64 = 0) :
    ∀ b ∈ chunks64 l, b.length = 64 := by
  have hn : l.length = 64 * (l.length / 64) := by omega
  have hcc : chunk_count l.length = l.length / 64 := by
    unfold chunk_count
    omega
  rw [chunks64, hcc]
  exact chunks_go_length (l.length / 64) l hn

/-- Feeding blocks of exactly 64 bytes through `compute_hash` never trips
its assertion and folds the pure compression over the blocks. -/
theorem compress_blocks_all_64 : ∀ (bs : List (List Nat)) (st : List Nat),
    (∀ b ∈ bs, b.length = 64) →
    compress_blocks bs st = some (bs.foldl (fun s b => compute_hash_core b s) st) := by
  intro bs
  induction bs with
  | nil =>
    intro st _
    rfl
  | cons b bs ih =>
    intro st hall
    show (compute_hash b st).bind (compress_blocks bs) = _
    rw [compute_hash, if_pos (hall b (by simp))]
    show compress_blocks bs (compute_hash_core b st) = _
    rw [ih (compute_hash_core b st) (fun b' hb' => hall b' (by simp [hb']))]
    rfl

/-- The driver loop on an empty rest of stream returns the state as is. -/
theorem main_loop_nil (fs fuel nb : Nat) (st : List Nat) :
    main_loop fs fuel [] nb st = some st := by
  cases fuel <;> rfl

/-- The driver loop, started on the unread rest `rem` of the stream with
the chunk count of `rem`, finishes with the fold of the pure compression
over the 64-byte slices of `rem` followed by the padding suffix.  The
alignment hypothesis records that `fs` is the bit length of the whole
stream, of which `rem` is the still-unread suffix (the bytes already
consumed are a multiple of 64). -/
theorem main_loop_eq (fs : Nat) (hfs : fs < 2 ^ 64) :
    ∀ (fuel : Nat) (rem st : List Nat), rem.length ≤ fuel → rem ≠ [] →
      fs % 512 = 8 * rem.length % 512 →
      main_loop fs fuel rem (chunk_count rem.length) st =
        some ((chunks64 (rem ++ pad_tail fs)).foldl
          (fun s b => compute_hash_core b s) st) := by
  intro fuel
  induction fuel with
  | zero =>
    intro rem st hle hne _
    exact absurd (List.length_eq_zero.mp (by omega)) hne
  | succ fuel ih =>
    intro rem st hle hne halign
    rcases rem with _ | ⟨d, ds⟩
    · exact absurd rfl hne
    have hstep : main_loop fs (fuel + 1) (d :: ds) (chunk_count (d :: ds).length) st =
        (if chunk_count (d :: ds).length = 1 then perform_padding ((d :: ds).take 64) fs
         else some ((d :: ds).take 64)).bind fun chunck =>
          (compress_blocks (chunks64 chunck) st).bind fun st' =>
            main_loop fs fuel ((d :: ds).drop 64) (chunk_count (d :: ds).length - 1) st' :=
      rfl
    have hpos : 0 < (d :: ds).length := by simp
    by_cases hlast : (d :: ds).length ≤ 64
    · have hcc : chunk_count (d :: ds).length = 1 := by
        unfold chunk_count
        omega
      rw [hstep, hcc, if_pos rfl, List.take_of_length_le hlast,
        perform_padding, if_pos hlast, if_pos hfs]
      show (compress_blocks (chunks64 (perform_padding_core (d :: ds) fs)) st).bind _ = _
      have hlen64 : (perform_padding_core (d :: ds) fs).length % 64 = 0 := by
        rw [perform_padding_core_length, pad_zero_count_eq]
        omega
      rw [compress_blocks_all_64 _ _ (chunks64_all_64 _ hlen64)]
      show main_loop fs fuel ((d :: ds).drop 64) _ _ = _
      rw [List.drop_eq_nil_iff.mpr hlast, main_loop_nil, perform_padding_core_eq_tail]
    · have hne1 : chunk_count (d :: ds).length ≠ 1 := by
        unfold chunk_count
        omega
      have htake : ((d :: ds).take 64).length = 64 := by
        rw [List.length_take]
        omega
      rw [hstep, if_neg hne1]
      show (compress_blocks (chunks64 ((d :: ds).take 64)) st).bind _ = _
      rw [chunks64_single _ htake,
        compress_blocks_all_64 _ _ (by intro b hb; rw [List.mem_singleton] at hb; rw [hb, htake])]
      show main_loop fs fuel ((d :: ds).drop 64) _ _ = _
      have hdrop : ((d :: ds).drop 64).length = (d :: ds).length - 64 := by
        rw [List.length_drop]
      have hccd : chunk_count (d :: ds).length - 1 = chunk_count ((d :: ds).drop 64).length := by
        rw [hdrop]
        unfold chunk_count
        omega
      rw [hccd, ih ((d :: ds).drop 64) _ (by omega) (by rw [← List.length_pos, hdrop]; omega)
        (by rw [hdrop]; omega)]
      rw [chunks64_cons ((d :: ds) ++ pad_tail fs) (by simp),
        List.take_append_of_le_length (by omega), List.drop_append_of_le_length (by omega)]
      rfl

/-- The driver's chunk count equals the 64-byte chunk count of the data
when the file size in bits is 8 times the byte count. -/
theorem nb_chuncks_eq (n : Nat) : nb_chuncks (8 * n) = chunk_count n := by
  unfold nb_chuncks chunk_count
  rw [Nat.shiftRight_eq_div_pow]
  show 8 * n / 512 + _ = _
  split <;> omega

/-- The code's padding suffix at bit length `8 * n` has the spec's
minimal zero count. -/
theorem pad_tail_eq_spec (n : Nat) :
    pad_tail (8 * n) = [0x80] ++ List.replicate ((119 - n % 64) % 64) 0 ++
      to_bytes_be8 (8 * n) := by
  unfold pad_tail
  rw [show pad_zero_count (8 * n) = (119 - n % 64) % 64 by rw [pad_zero_count_eq]; omega]

/-- The code's padded chunk of the whole message equals the spec's
whole-message padding. -/
theorem pad_full_spec_eq (data : List Nat) :
    pad_full_spec data = data ++ pad_tail (8 * data.length) := by
  rw [pad_full_spec, pad_tail_eq_spec]
  simp

/-- C7: for every byte stream whose bit length is below `2 ^ 64`, the
driver's chunked processing — every chunk but the last fed directly to
`compute_hash`, the last chunk through `perform_padding` first — produces
the same final hash state as the single-shot computation that pads the
whole message at once and compresses its 64-byte blocks in order. -/
theorem streaming_eq_single_shot (data : List Nat)
    (hsize : 8 * data.length < 2 ^ 64) :
    main_state (8 * data.length) data = some (single_shot data) := by
  rcases eq_or_ne data [] with hd | hd
  · subst hd
    decide
  · have hpos : 0 < data.length := List.length_pos.mpr hd
    rw [main_state, if_neg (by omega), if_neg (by omega), nb_chuncks_eq,
      main_loop_eq (8 * data.length) hsize data.length data H le_rfl hd rfl,
      single_shot, pad_full_spec_eq]

/-- C7 witness: at the 3-byte stream `[1, 2, 3]`. -/
theorem streaming_eq_single_shot_witness :
    main_state (8 * ([1, 2, 3] : List Nat).length) [1, 2, 3] =
      some (single_shot [1, 2, 3]) :=
  streaming_eq_single_shot [1, 2, 3] (by norm_num)

/-- C10: on every byte stream the driver accepts (bit length below
`2 ^ 64`), no assertion ever fires: every block passed to `compute_hash`
is exactly 64 bytes and every chunk passed to `perform_padding` is at most
64 bytes, so the run produces a final state (`isSome`, where `none` models
an assertion failure or rejection). -/
theorem driver_asserts_hold (data : List Nat) (hsize : 8 * data.length < 2 ^ 64) :
    (main_state (8 * data.length) data).isSome := by
  rcases eq_or_ne data [] with hd | hd
  · subst hd
    decide
  · have hpos : 0 < data.length := List.length_pos.mpr hd
    rw [main_state, if_neg (by omega), if_neg (by omega), nb_chuncks_eq,
      main_loop_eq (8 * data.length) hsize data.length data H le_rfl hd rfl]
    rfl

/-- C10 witness: at the 1-byte stream `[5]`. -/
theorem driver_asserts_hold_witness :
    (main_state (8 * ([5] : List Nat).length) [5]).isSome :=
  driver_asserts_hold [5] (by norm_num)

end Sha256
